import Mathlib

/-!
# Verification of the vocabulary / vector-table engine in `src/vocab.py`

Shallow embedding of the Python source:

* `Vocab.__init__` (lines 50-92), `Vocab.extend` (108-113) and the
  `defaultdict(_default_unk_index)` lookup contract are modelled by
  `buildVocab`, `extend` and `stoiLookup` over association lists that keep
  Python's dict insertion order.  `collections.Counter` is modelled by an
  association list `String × ℤ` (Python dicts have unique keys, which appears
  as a `Nodup` hypothesis where it matters).
* The parsing loop of `Vectors.cache` (lines 245-270) is modelled by
  `loadLoop`, with each input line already split into its token field and its
  numeric-field list (the claims under study only concern field counts and
  the control flow, not float literal parsing).
* The module-level query code: `get_word` (317-318), `closest` (320-325), the
  aggregation loop (336-345) and the intersection loop (348-352) are modelled
  by `get_word`, `closest`, `weightedAggregate` and `intersectNeighbors`.
  The numeric backend (`torch`) is a black box; vector components are
  modelled by `ℚ` and the distance metric `torch.dist` is kept as an explicit
  function parameter.  Python's `sorted` is a stable sort keyed on the
  distance component; a stable sort by a total preorder has a unique output,
  so the stable insertion sort `iSort` below is a faithful model.
-/

/-! ## Stable sort (models Python `sorted` / `list.sort`) -/

/-- Insert `a` into `l`, placing it before the first element `b` with
`le a b = true`.  Combined with `iSort` this is the classic stable insertion
sort: elements that compare as ties keep their original relative order. -/
def oInsert {α : Type} (le : α → α → Bool) (a : α) : List α → List α
  | [] => [a]
  | b :: l => if le a b then a :: b :: l else b :: oInsert le a l

/-- Stable insertion sort by the Boolean comparison `le`. -/
def iSort {α : Type} (le : α → α → Bool) : List α → List α
  | [] => []
  | a :: l => oInsert le a (iSort le l)

/-- Code-point comparison of strings as lists of code points; this is the
order Python uses when comparing `str` values. -/
def natListLe : List ℕ → List ℕ → Bool
  | [], _ => true
  | _ :: _, [] => false
  | a :: as, b :: bs =>
    if a < b then true else if b < a then false else natListLe as bs

/-- Python string comparison `a <= b` (lexicographic on code points). -/
def strLe (a b : String) : Bool :=
  natListLe (a.data.map Char.toNat) (b.data.map Char.toNat)

/-! ## `collections.Counter` as an insertion-ordered association list -/

abbrev Counter := List (String × ℤ)

/-- `counter[t]`: the count of `t`, `0` when absent (no insertion). -/
def cget (c : Counter) (t : String) : ℤ :=
  ((c.find? (fun p => p.1 == t)).map Prod.snd).getD 0

/-- `t in counter`. -/
def chasKey (c : Counter) (t : String) : Bool :=
  c.any (fun p => p.1 == t)

/-- One step of `counter.update([...])`: add `1` to the count of `t`,
inserting `t` with count `1` when absent. -/
def cincr (c : Counter) (t : String) : Counter :=
  if chasKey c t then
    c.map (fun p => if p.1 == t then (p.1, p.2 + 1) else p)
  else c ++ [(t, 1)]

/-- `counter.update(ts)` for a list of tokens. -/
def cupdate (c : Counter) (ts : List String) : Counter := ts.foldl cincr c

/-- One step of `counter.subtract({t: v})`. -/
def csetsub (c : Counter) (t : String) (v : ℤ) : Counter :=
  if chasKey c t then
    c.map (fun p => if p.1 == t then (p.1, p.2 - v) else p)
  else c ++ [(t, 0 - v)]

/-- `counter.subtract({tok: counter[tok] for tok in pref})` — the dict
comprehension deduplicates the keys (first occurrence order) and each key's
subtracted value is its current count; subtracting at one key leaves the
other keys' counts unchanged, so reading the count just before each step is
equivalent to reading them all up front. -/
def csubtractSelf (c : Counter) (pref : List String) : Counter :=
  pref.dedup.foldl (fun acc t => csetsub acc t (cget acc t)) c

/-! ## `Vocab` -/

/-- `Vocab` state: `itos` and the `defaultdict` `stoi`, the latter as an
insertion-ordered association list. -/
structure Vocab where
  itos : List String
  stoi : List (String × ℕ)
deriving DecidableEq

/-- `_default_unk_index` (line 301): the reserved unknown-token index. -/
def default_unk_index : ℕ := 0

/-- Plain (non-mutating) dict lookup in `stoi`. -/
def stoiFind (s : List (String × ℕ)) (t : String) : Option ℕ :=
  (s.find? (fun p => p.1 == t)).map Prod.snd

/-- Dict assignment `stoi[t] = i`. -/
def stoiSet (s : List (String × ℕ)) (t : String) (i : ℕ) : List (String × ℕ) :=
  if s.any (fun p => p.1 == t) then
    s.map (fun p => if p.1 == t then (p.1, i) else p)
  else s ++ [(t, i)]

/-- `stoi[t]` on the `defaultdict(_default_unk_index)`: a missing key is
inserted with value `default_unk_index = 0` and that value is returned. -/
def stoiLookup (v : Vocab) (t : String) : ℕ × Vocab :=
  match stoiFind v.stoi t with
  | some i => (i, v)
  | none => (default_unk_index, { v with stoi := v.stoi ++ [(t, default_unk_index)] })

/-- `{tok: i for i, tok in enumerate(pref)}` (later duplicates overwrite). -/
def stoiInit (pref : List String) : List (String × ℕ) :=
  pref.enum.foldl (fun s p => stoiSet s p.2 p.1) []

/-- Sort key for pass 1 of `Vocab.__init__` line 81: token ascending. -/
def tokenLe (a b : String × ℤ) : Bool := strLe a.1 b.1

/-- Sort key for pass 2 of `Vocab.__init__` line 82: count descending
(`reverse=True` on a stable sort keeps ties in their pass-1 order). -/
def freqDescLe (a b : String × ℤ) : Bool := decide (b.2 ≤ a.2)

/-- The `for word, freq in words_and_frequencies` loop (lines 84-88):
append while `freq >= min_freq` and `len(itos) != max_size`, breaking at the
first violation.  `max_size` here is already the adjusted bound of line 78;
the Python comparison `len(self.itos) == max_size` is `False` when
`max_size` is `None`. -/
def vocabLoop (min_freq : ℤ) (max_size : Option ℤ) :
    List (String × ℤ) → Vocab → Vocab
  | [], v => v
  | (w, f) :: rest, v =>
    if f < min_freq ∨ max_size = some (v.itos.length : ℤ) then v
    else vocabLoop min_freq max_size rest
      ⟨v.itos ++ [w], stoiSet v.stoi w v.itos.length⟩

/-- `Vocab.__init__` (lines 68-88).  Returns the built vocabulary together
with the caller's counter as it stands after construction (the constructor
mutates it in place via `update` and `subtract`; `self.freqs` is a copy taken
beforehand). -/
def buildVocab (counter : Counter) (max_size : Option ℤ) (min_freq : ℤ)
    (specials : List String) : Vocab × Counter :=
  let min_freq1 := max min_freq 1
  let pref := "<unk>" :: specials
  let c1 := cupdate counter pref
  let stoi0 := stoiInit pref
  let itos0 := pref
  let c2 := csubtractSelf c1 pref
  let max_size2 : Option ℤ := max_size.map (fun m => m + (itos0.length : ℤ))
  let waf := iSort freqDescLe (iSort tokenLe c2)
  (vocabLoop min_freq1 max_size2 waf ⟨itos0, stoi0⟩, c2)

/-- `Vocab.extend` (lines 108-113). -/
def extend (v : Vocab) (other : Vocab) (sortWords : Bool) : Vocab :=
  let ws := if sortWords then iSort strLe other.itos else other.itos
  ws.foldl (fun acc w =>
    if acc.stoi.any (fun p => p.1 == w) then acc
    else ⟨acc.itos ++ [w], stoiSet acc.stoi w acc.itos.length⟩) v

/-- Observable operations on a built `Vocab`: `extend` calls and `stoi`
lookups (the latter mutate the `defaultdict` when the key is missing). -/
inductive VocabOp where
  | extendOp (other : Vocab) (sortWords : Bool)
  | lookupOp (t : String)

def applyOp (v : Vocab) : VocabOp → Vocab
  | .extendOp o s => extend v o s
  | .lookupOp t => (stoiLookup v t).2

def runOps (v : Vocab) (ops : List VocabOp) : Vocab := ops.foldl applyOp v

/-- `opsSafe v ops` holds when every `stoi` lookup in `ops` hits a token that
is present in `stoi` at that moment. -/
def opsSafe (v : Vocab) : List VocabOp → Bool
  | [] => true
  | op :: rest =>
    (match op with
     | .extendOp _ _ => true
     | .lookupOp t => v.stoi.any (fun p => p.1 == t)) && opsSafe (applyOp v op) rest

/-! ## The parsing loop of `Vectors.cache` (lines 245-270) -/

/-- One line of the source file, already split on single spaces
(line 248-249): the token field and the numeric fields.  The loop:
a first line with more than one numeric field fixes `dim`; a line with
exactly one numeric field is skipped with a warning; a line whose field
count disagrees with `dim` (including a field count of `0` while `dim` is
still unset, since `None != 0` in Python) raises `RuntimeError`; otherwise
the row is accepted. -/
def loadLoop : Option ℕ → List (String × List ℚ) → List (String × List ℚ) →
    Except String (Option ℕ × List (String × List ℚ))
  | dim, rows, [] => .ok (dim, rows)
  | dim, rows, (w, entries) :: rest =>
    if dim = none ∧ 1 < entries.length then
      loadLoop (some entries.length) (rows ++ [(w, entries)]) rest
    else if entries.length = 1 then
      loadLoop dim rows rest
    else if dim ≠ some entries.length then
      .error "DimensionInconsistency"
    else
      loadLoop dim (rows ++ [(w, entries)]) rest

/-- The whole parse, starting from `dim = None` and no accepted rows. -/
def loadVectors (lines : List (String × List ℚ)) :
    Except String (Option ℕ × List (String × List ℚ)) :=
  loadLoop none [] lines

/-! ## `Vectors` and the module-level query operations -/

/-- A loaded `Vectors` object: `itos`, the plain dict `stoi`, the row
matrix, `dim` and the `unk_init` callback.  `unk_init` is modelled as a
function of the dimension: in the source it receives the freshly allocated
`torch.Tensor(1, self.dim)` and returns the fallback vector. -/
structure Vectors where
  itos : List String
  stoi : List (String × ℕ)
  vectors : List (List ℚ)
  dim : ℕ
  unk_init : ℕ → List ℚ

/-- The default `unk_init = torch.Tensor.zero_`: an all-zero vector of the
table's dimension. -/
def defaultUnkInit (d : ℕ) : List ℚ := List.replicate d 0

/-- `Vectors.__getitem__` (lines 193-197): the row for a token present in
`stoi`, otherwise `unk_init` applied to a fresh `dim`-sized tensor; the
object itself is returned unchanged (`stoi` here is a plain dict, so the
membership test inserts nothing).  An out-of-range row index yields `none`
(a Python `IndexError`); it cannot occur on a well-formed table. -/
def vectorsGetItem (g : Vectors) (token : String) : Option (List ℚ) × Vectors :=
  match stoiFind g.stoi token with
  | some i => (g.vectors.get? i, g)
  | none => (some (g.unk_init g.dim), g)

/-- Module-level `get_word` (lines 317-318): `glove.vectors[glove.stoi[word]]`
on plain dict/list indexing — `none` models the `KeyError`/`IndexError`
raised when the word is absent. -/
def get_word (g : Vectors) (w : String) : Option (List ℚ) :=
  (stoiFind g.stoi w).bind (fun i => g.vectors.get? i)

/-- `str.lower`, restricted to the ASCII case mapping. -/
def pyLower (s : String) : String := String.mk (s.data.map Char.toLower)

/-- Comparison used by `sorted(all_dists, key=lambda t: t[1])`. -/
def distLe (a b : String × ℚ) : Bool := decide (a.2 ≤ b.2)

/-- `closest` (lines 320-325): distance from `vec` to every word of the
table, stably sorted by distance, first `n` kept.  `dist` abstracts
`torch.dist` (the numeric backend is a black box). -/
def closest (g : Vectors) (dist : List ℚ → List ℚ → ℚ) (vec : List ℚ)
    (n : ℕ) : Option (List (String × ℚ)) :=
  (g.itos.mapM (fun w => (get_word g w).map (fun wv => (w, dist vec wv)))).map
    (fun all_dists => (iSort distLe all_dists).take n)

/-- The module-level aggregation loop (lines 336-345): occurrence counts of
the distinct raw words, count-weighted sum of their (lowercased) vectors,
divided by the total word count.  `list(set(words))` enumerates the distinct
words in an unspecified order; since vector addition is commutative the
result does not depend on it, and the model fixes the order with `dedup`.
An empty `words` list makes `unique_words[0]` raise `IndexError` (`none`). -/
def smulVec (c : ℚ) (v : List ℚ) : List ℚ := v.map (fun x => c * x)

def addVec (u v : List ℚ) : List ℚ := List.zipWith (fun a b => a + b) u v

def divVec (v : List ℚ) (c : ℚ) : List ℚ := v.map (fun x => x / c)

def weightedAggregate (g : Vectors) (words : List String) : Option (List ℚ) :=
  match words.dedup with
  | [] => none
  | u0 :: us => do
    let v0 ← get_word g (pyLower u0)
    let s ← us.foldlM (fun acc ui => do
      let vi ← get_word g (pyLower ui)
      pure (addVec acc (smulVec ((words.count ui : ℤ) : ℚ) vi)))
      (smulVec ((words.count u0 : ℤ) : ℚ) v0)
    pure (divVec s ((words.length : ℤ) : ℚ))

/-- Sum of a nonempty family of vectors, as the code's `sum = v0*c0` then
`sum += vi*ci` fold. -/
def vsumNE : List (List ℚ) → List ℚ
  | [] => []
  | v :: vs => vs.foldl addVec v

/-- The intersection loop (lines 348-352): Python `set`s of the
`(word, distance)` pairs returned by `closest`, seeded with the first word's
set and intersected with every word's set (the first word is intersected
twice; `n` abstracts the default argument `n=10`). -/
def intersectNeighbors (g : Vectors) (dist : List ℚ → List ℚ → ℚ)
    (words : List String) (n : ℕ) : Option (Finset (String × ℚ)) :=
  match words with
  | [] => none
  | w0 :: _ => do
    let v0 ← get_word g (pyLower w0)
    let c0 ← closest g dist v0 n
    words.foldlM (fun acc wi => do
      let vi ← get_word g (pyLower wi)
      let ci ← closest g dist vi n
      pure (acc ∩ ci.toFinset)) c0.toFinset

/-- The order produced by a stable sort with comparison `le` on a list whose
original order satisfies `S`: a pair is either strictly ordered by `le`, or
tied, in which case the original relation `S` is preserved. -/
def sortRel {α : Type} (le : α → α → Bool) (S : α → α → Prop) (x y : α) : Prop :=
  le x y = true ∧ (le y x = true → S x y)

/-- `enumerate` pairing for `itos`: token together with its index, starting
at `k`. -/
def enumPairs : List String → ℕ → List (String × ℕ)
  | [], _ => []
  | a :: as, k => (a, k) :: enumPairs as (k + 1)

/-- The healthy-state invariant of a `Vocab`: `stoi` is exactly the
enumeration of `itos` (same keys, in insertion order, mapped to their row
index) and `itos` has no duplicates. -/
def vocabInv (v : Vocab) : Prop :=
  v.stoi = enumPairs v.itos 0 ∧ v.itos.Nodup

/-- Two-token table used to instantiate the query operations on concrete
inputs: `"a"` at row `[0]`, `"b"` at row `[3]`. -/
def gEx : Vectors :=
  { itos := ["a", "b"], stoi := [("a", 0), ("b", 1)], vectors := [[0], [3]],
    dim := 1, unk_init := defaultUnkInit }

/-- A concrete pluggable metric (the spec treats `distance` as
caller-pluggable): `0` on equal vectors, `9` otherwise, chosen so that every
arithmetic step is kernel-computable. -/
def distEx (u v : List ℚ) : ℚ := if u = v then 0 else 9

/-- The rows of `gEx` as a function, used to discharge lookup hypotheses on
concrete inputs. -/
def rowsEx (w : String) : List ℚ := if w = "a" then [0] else [3]

/-- The two neighbor sets of `gEx` under `distEx` (with `n = 2`), keyed by
query token, used to instantiate the intersection theorem. -/
def fEx (w : String) : Finset (String × ℚ) :=
  if w = "a" then {("a", 0), ("b", 9)} else {("b", 0), ("a", 9)}

/-! ## Lemmas about the stable insertion sort -/

theorem oInsert_perm {α : Type} (le : α → α → Bool) (a : α) (l : List α) :
    List.Perm (oInsert le a l) (a :: l) := by
  induction l with
  | nil => exact List.Perm.refl _
  | cons b m ih =>
    simp only [oInsert]
    by_cases h : le a b = true
    · simp [h]
    · simp only [h, if_false]
      exact (List.Perm.cons b ih).trans (List.Perm.swap a b m)

theorem iSort_perm {α : Type} (le : α → α → Bool) (l : List α) :
    List.Perm (iSort le l) l := by
  induction l with
  | nil => exact List.Perm.refl _
  | cons a m ih =>
    exact (oInsert_perm le a (iSort le m)).trans (List.Perm.cons a ih)

theorem mem_oInsert {α : Type} (le : α → α → Bool) (a x : α) (l : List α) :
    x ∈ oInsert le a l ↔ x = a ∨ x ∈ l := by
  rw [(oInsert_perm le a l).mem_iff, List.mem_cons]

theorem pairwise_oInsert {α : Type} (le : α → α → Bool) (S : α → α → Prop)
    (htot : ∀ x y, le x y = true ∨ le y x = true)
    (htrans : ∀ x y z, le x y = true → le y z = true → le x z = true)
    (a : α) (l : List α)
    (hS : ∀ b ∈ l, le a b = true → le b a = true → S a b)
    (hl : l.Pairwise (sortRel le S)) :
    (oInsert le a l).Pairwise (sortRel le S) := by
  induction l with
  | nil => exact List.pairwise_singleton _ _
  | cons b m ih =>
    rcases List.pairwise_cons.mp hl with ⟨hbm, hm⟩
    simp only [oInsert]
    by_cases hab : le a b = true
    · simp only [hab, if_true]
      refine List.pairwise_cons.mpr ⟨?_, hl⟩
      intro y hy
      rcases List.mem_cons.mp hy with rfl | hym
      · exact ⟨hab, fun hba => hS y (List.mem_cons_self _ _) hab hba⟩
      · have hay : le a y = true := htrans a b y hab (hbm y hym).1
        exact ⟨hay, fun hya => hS y (List.mem_cons_of_mem _ hym) hay hya⟩
    · simp only [hab, if_false]
      refine List.pairwise_cons.mpr ⟨?_, ?_⟩
      · intro y hy
        rcases (mem_oInsert le a y m).mp hy with rfl | hym
        · have hba : le b y = true := (htot y b).resolve_left hab
          exact ⟨hba, fun hyb => absurd hyb hab⟩
        · exact hbm y hym
      · exact ih (fun c hc => hS c (List.mem_cons_of_mem _ hc)) hm

theorem iSort_pairwise {α : Type} (le : α → α → Bool) (S : α → α → Prop)
    (htot : ∀ x y, le x y = true ∨ le y x = true)
    (htrans : ∀ x y z, le x y = true → le y z = true → le x z = true)
    (l : List α) (hl : l.Pairwise S) :
    (iSort le l).Pairwise (sortRel le S) := by
  induction l with
  | nil => exact List.Pairwise.nil
  | cons a m ih =>
    rcases List.pairwise_cons.mp hl with ⟨ham, hm⟩
    refine pairwise_oInsert le S htot htrans a (iSort le m) ?_ (ih hm)
    intro b hb _ _
    exact ham b ((iSort_perm le m).mem_iff.mp hb)

theorem filter_oInsert {α : Type} (le : α → α → Bool) (p : α → Bool)
    (a : α) (l : List α)
    (h : ∀ b, p a = true → le a b = false → p b = false) :
    (oInsert le a l).filter p =
      if p a then a :: l.filter p else l.filter p := by
  induction l with
  | nil =>
    by_cases hpa : p a = true <;> simp [oInsert, List.filter, hpa]
  | cons b m ih =>
    simp only [oInsert]
    by_cases hab : le a b = true
    · by_cases hpa : p a = true
      · simp [hab, List.filter, hpa]
      · simp only [hab, if_true, List.filter]
        simp [hpa]
    · have hpb : p a = true → p b = false := fun hpa =>
        h b hpa (Bool.eq_false_iff.mpr hab)
      by_cases hpa : p a = true
      · have hb : p b = false := hpb hpa
        simp only [hab, if_false, List.filter, hb, hpa, if_true] at ih ⊢
        simp only [ih, hpa, if_true]
      · simp only [hab, if_false, List.filter, hpa] at ih ⊢
        cases hpb2 : p b
        · simp only [hpb2] at ih ⊢
          exact ih
        · simp only [hpb2, if_neg, Bool.false_eq_true, if_false] at ih ⊢
          exact congrArg (b :: ·) ih

theorem filter_iSort {α : Type} (le : α → α → Bool) (p : α → Bool)
    (h : ∀ a b, p a = true → le a b = false → p b = false) (l : List α) :
    (iSort le l).filter p = l.filter p := by
  induction l with
  | nil => rfl
  | cons a m ih =>
    have hoi := filter_oInsert le p a (iSort le m) (fun b => h a b)
    by_cases hpa : p a = true
    · simp only [iSort, hoi, hpa, if_true, List.filter, ih]
    · simp only [iSort, hoi, hpa, if_false, List.filter, ih]
      simp only [Bool.not_eq_true] at hpa
      simp [hpa]

theorem pairwise_true {α : Type} (l : List α) : l.Pairwise (fun _ _ => True) := by
  induction l with
  | nil => exact List.Pairwise.nil
  | cons a m ih => exact List.pairwise_cons.mpr ⟨fun _ _ => trivial, ih⟩

/-! ## The concrete comparators are total preorders -/

theorem natListLe_total (a b : List ℕ) :
    natListLe a b = true ∨ natListLe b a = true := by
  induction a generalizing b with
  | nil => left; rfl
  | cons x xs ih =>
    cases b with
    | nil => right; rfl
    | cons y ys =>
      simp only [natListLe]
      rcases Nat.lt_trichotomy x y with h | h | h
      · left; simp [h]
      · subst h
        have hxx : ¬ x < x := lt_irrefl x
        rcases ih ys with h2 | h2
        · left; simp [hxx, h2]
        · right; simp [hxx, h2]
      · right; simp [h]

theorem natListLe_trans {a b c : List ℕ} (h1 : natListLe a b = true)
    (h2 : natListLe b c = true) : natListLe a c = true := by
  induction a generalizing b c with
  | nil => rfl
  | cons x xs ih =>
    cases b with
    | nil => simp [natListLe] at h1
    | cons y ys =>
      cases c with
      | nil => simp [natListLe] at h2
      | cons z zs =>
        simp only [natListLe] at h1 h2 ⊢
        by_cases hxy : x < y
        · by_cases hyz : y < z
          · simp [Nat.lt_trans hxy hyz]
          · by_cases hzy : z < y
            · simp [hyz, hzy] at h2
            · have hyz2 : y = z := le_antisymm (le_of_not_lt hzy) (le_of_not_lt hyz)
              subst hyz2
              simp [hxy]
        · by_cases hyx : y < x
          · simp [hxy, hyx] at h1
          · have hxy2 : x = y := le_antisymm (le_of_not_lt hyx) (le_of_not_lt hxy)
            subst hxy2
            by_cases hyz : x < z
            · simp [hyz]
            · by_cases hzy : z < x
              · simp [hyz, hzy] at h2
              · have hxz2 : x = z := le_antisymm (le_of_not_lt hzy) (le_of_not_lt hyz)
                subst hxz2
                simp only [lt_irrefl, if_false] at h1 h2 ⊢
                exact ih h1 h2

theorem strLe_total (a b : String) : strLe a b = true ∨ strLe b a = true :=
  natListLe_total _ _

theorem strLe_trans {a b c : String} (h1 : strLe a b = true)
    (h2 : strLe b c = true) : strLe a c = true :=
  natListLe_trans h1 h2

theorem tokenLe_total (a b : String × ℤ) :
    tokenLe a b = true ∨ tokenLe b a = true := strLe_total _ _

theorem tokenLe_trans (a b c : String × ℤ) (h1 : tokenLe a b = true)
    (h2 : tokenLe b c = true) : tokenLe a c = true := strLe_trans h1 h2

theorem freqDescLe_total (a b : String × ℤ) :
    freqDescLe a b = true ∨ freqDescLe b a = true := by
  simp only [freqDescLe, decide_eq_true_eq]
  omega

theorem freqDescLe_trans (a b c : String × ℤ) (h1 : freqDescLe a b = true)
    (h2 : freqDescLe b c = true) : freqDescLe a c = true := by
  simp only [freqDescLe, decide_eq_true_eq] at h1 h2 ⊢
  omega

theorem distLe_total (a b : String × ℚ) :
    distLe a b = true ∨ distLe b a = true := by
  simp only [distLe, decide_eq_true_eq]
  exact le_total _ _

theorem distLe_trans (a b c : String × ℚ) (h1 : distLe a b = true)
    (h2 : distLe b c = true) : distLe a c = true := by
  simp only [distLe, decide_eq_true_eq] at h1 h2 ⊢
  exact le_trans h1 h2

/-! ## Counter lemmas -/

theorem keys_map_of_fst_preserving (c : Counter) (f : String × ℤ → String × ℤ)
    (hf : ∀ p, (f p).1 = p.1) : (c.map f).map Prod.fst = c.map Prod.fst := by
  induction c with
  | nil => rfl
  | cons p m ih => simp [hf, ih]

theorem cget_eq_of_mem_nodup {c : Counter} {t : String} {v : ℤ}
    (hnd : (c.map Prod.fst).Nodup) (hm : (t, v) ∈ c) : cget c t = v := by
  induction c with
  | nil => cases hm
  | cons p m ih =>
    rcases List.mem_cons.mp hm with rfl | hm2
    · simp [cget, List.find?]
    · have hne : p.1 ≠ t := by
        intro he
        have : p.1 ∈ m.map Prod.fst :=
          he ▸ (List.mem_map.mpr ⟨(t, v), hm2, rfl⟩)
        exact (List.nodup_cons.mp hnd).1 this
      have : (p.1 == t) = false := beq_eq_false_iff_ne.mpr hne
      simp only [cget, List.find?, this] at ih ⊢
      exact ih (List.nodup_cons.mp hnd).2 hm2

theorem find?_cons_pos {α : Type} (p : α → Bool) (a : α) (l : List α)
    (h : p a = true) : (a :: l).find? p = some a := by
  simp [List.find?, h]

theorem find?_cons_neg {α : Type} (p : α → Bool) (a : α) (l : List α)
    (h : p a = false) : (a :: l).find? p = l.find? p := by
  simp [List.find?, h]

theorem find?_append_eq {α : Type} (p : α → Bool) (l₁ l₂ : List α) :
    (l₁ ++ l₂).find? p =
      match l₁.find? p with
      | some a => some a
      | none => l₂.find? p := by
  induction l₁ with
  | nil => rfl
  | cons a m ih =>
    cases hpa : p a
    · rw [List.cons_append, find?_cons_neg p a _ hpa, find?_cons_neg p a m hpa, ih]
    · rw [List.cons_append, find?_cons_pos p a _ hpa, find?_cons_pos p a m hpa]

theorem cget_map_modify (c : Counter) (g : String × ℤ → ℤ) (s t : String)
    (h : t ≠ s) :
    cget (c.map (fun p => if p.1 == t then (p.1, g p) else p)) s = cget c s := by
  induction c with
  | nil => rfl
  | cons p m ih =>
    simp only [List.map]
    by_cases hps : (p.1 == s) = true
    · have hpt : (p.1 == t) = false := by
        have he : p.1 = s := beq_iff_eq.mp hps
        exact beq_eq_false_iff_ne.mpr (he ▸ (Ne.symm h))
      unfold cget
      rw [if_neg (by simp [hpt])]
      rw [find?_cons_pos _ p _ hps, find?_cons_pos _ p _ hps]
    · have hps2 : (p.1 == s) = false := Bool.eq_false_iff.mpr hps
      unfold cget
      have hfq : (fun q => q.1 == s)
          (if (p.1 == t) = true then (p.1, g p) else p) = false := by
        by_cases hq : (p.1 == t) = true <;> simp [hq, hps2]
      rw [find?_cons_neg (fun q => q.1 == s)
        (if (p.1 == t) = true then (p.1, g p) else p) _ hfq]
      rw [find?_cons_neg (fun q => q.1 == s) p _ hps2]
      exact ih

theorem cget_cincr_ne (c : Counter) (s t : String) (h : t ≠ s) :
    cget (cincr c s) t = cget c t := by
  unfold cincr
  by_cases hk : chasKey c s = true
  · simp only [hk, if_true]
    exact cget_map_modify c (fun p => p.2 + 1) t s (Ne.symm h)
  · have hk2 : chasKey c s = false := Bool.eq_false_iff.mpr hk
    rw [hk2]
    simp only [Bool.false_eq_true, if_false]
    unfold cget
    rw [find?_append_eq (fun p => p.1 == t) c [(s, 1)]]
    cases hf : c.find? (fun p => p.1 == t)
    · simp only [hf]
      have hst : ((fun p => p.1 == t) ((s, (1:ℤ)))) = false :=
        beq_eq_false_iff_ne.mpr (Ne.symm h)
      rw [find?_cons_neg (fun p => p.1 == t) (s, 1) [] hst]
      rfl
    · simp [hf]

theorem cget_csetsub_ne (c : Counter) (s t : String) (v : ℤ) (h : t ≠ s) :
    cget (csetsub c s v) t = cget c t := by
  unfold csetsub
  by_cases hk : chasKey c s = true
  · simp only [hk, if_true]
    exact cget_map_modify c (fun p => p.2 - v) t s (Ne.symm h)
  · have hk2 : chasKey c s = false := Bool.eq_false_iff.mpr hk
    rw [hk2]
    simp only [Bool.false_eq_true, if_false]
    unfold cget
    rw [find?_append_eq (fun p => p.1 == t) c [(s, 0 - v)]]
    cases hf : c.find? (fun p => p.1 == t)
    · simp only [hf]
      have hst : ((fun p => p.1 == t) ((s, 0 - v))) = false :=
        beq_eq_false_iff_ne.mpr (Ne.symm h)
      rw [find?_cons_neg (fun p => p.1 == t) (s, 0 - v) [] hst]
      rfl
    · simp [hf]

theorem find?_map_modify_self (c : Counter) (g : String × ℤ → ℤ) (t : String) :
    (c.map (fun p => if p.1 == t then (p.1, g p) else p)).find? (fun p => p.1 == t)
      = (c.find? (fun p => p.1 == t)).map (fun p => (p.1, g p)) := by
  induction c with
  | nil => rfl
  | cons p m ih =>
    simp only [List.map]
    by_cases hpt : (p.1 == t) = true
    · rw [if_pos hpt]
      rw [find?_cons_pos (fun q => q.1 == t) (p.1, g p) _ (by simpa using hpt)]
      rw [find?_cons_pos (fun q => q.1 == t) p _ hpt]
      rfl
    · have hpt2 : (p.1 == t) = false := Bool.eq_false_iff.mpr hpt
      rw [if_neg hpt]
      rw [find?_cons_neg (fun q => q.1 == t) p _ hpt2]
      rw [find?_cons_neg (fun q => q.1 == t) p _ hpt2]
      exact ih

theorem chasKey_false_find?_none {c : Counter} {t : String}
    (h : chasKey c t = false) : c.find? (fun p => p.1 == t) = none := by
  rw [List.find?_eq_none]
  intro p hp hpt
  have : c.any (fun p => p.1 == t) = true := List.any_eq_true.mpr ⟨p, hp, hpt⟩
  rw [chasKey] at h
  rw [h] at this
  cases this

theorem cget_csetsub_self (c : Counter) (t : String) :
    cget (csetsub c t (cget c t)) t = 0 := by
  unfold csetsub
  by_cases hk : chasKey c t = true
  · rw [if_pos hk]
    unfold cget
    rw [find?_map_modify_self]
    cases hf : c.find? (fun p => p.1 == t) with
    | none => rfl
    | some q =>
      have hq : cget c t = q.2 := by
        unfold cget
        rw [hf]
        rfl
      simp [hq]
  · have hk2 : chasKey c t = false := Bool.eq_false_iff.mpr hk
    rw [hk2]
    simp only [Bool.false_eq_true, if_false]
    have hf : c.find? (fun p => p.1 == t) = none := chasKey_false_find?_none hk2
    have hc : cget c t = 0 := by
      unfold cget
      rw [hf]
      rfl
    unfold cget
    rw [find?_append_eq (fun p => p.1 == t) c _, hf]
    simp [List.find?]

theorem cget_cupdate_not_mem (c : Counter) (ts : List String) (t : String)
    (h : t ∉ ts) : cget (cupdate c ts) t = cget c t := by
  induction ts generalizing c with
  | nil => rfl
  | cons s rest ih =>
    have hts : t ≠ s := fun he => h (he ▸ List.mem_cons_self s rest)
    have hrest : t ∉ rest := fun hm => h (List.mem_cons_of_mem s hm)
    unfold cupdate
    simp only [List.foldl]
    have h2 := ih (cincr c s) hrest
    unfold cupdate at h2
    rw [h2]
    exact cget_cincr_ne c s t hts

theorem cget_subfold_not_mem (l : List String) (acc : Counter) (t : String)
    (h : t ∉ l) :
    cget (l.foldl (fun a s => csetsub a s (cget a s)) acc) t = cget acc t := by
  induction l generalizing acc with
  | nil => rfl
  | cons s rest ih =>
    have hts : t ≠ s := fun he => h (he ▸ List.mem_cons_self s rest)
    have hrest : t ∉ rest := fun hm => h (List.mem_cons_of_mem s hm)
    simp only [List.foldl]
    rw [ih _ hrest]
    exact cget_csetsub_ne acc s t _ hts

theorem cget_subfold_mem (l : List String) (acc : Counter) (t : String)
    (hm : t ∈ l) (hnd : l.Nodup) :
    cget (l.foldl (fun a s => csetsub a s (cget a s)) acc) t = 0 := by
  induction l generalizing acc with
  | nil => cases hm
  | cons s rest ih =>
    rcases List.nodup_cons.mp hnd with ⟨hsr, hndr⟩
    simp only [List.foldl]
    rcases List.mem_cons.mp hm with rfl | hmr
    · rw [cget_subfold_not_mem rest _ t hsr]
      exact cget_csetsub_self acc t
    · exact ih _ hmr hndr

theorem cget_csubtractSelf_mem (c : Counter) (pref : List String) (t : String)
    (h : t ∈ pref) : cget (csubtractSelf c pref) t = 0 :=
  cget_subfold_mem pref.dedup c t (List.mem_dedup.mpr h) pref.nodup_dedup

theorem cget_csubtractSelf_not_mem (c : Counter) (pref : List String)
    (t : String) (h : t ∉ pref) :
    cget (csubtractSelf c pref) t = cget c t :=
  cget_subfold_not_mem pref.dedup c t (fun hm => h (List.mem_dedup.mp hm))

/-! ## Key sets stay duplicate-free -/

theorem chasKey_iff (c : Counter) (t : String) :
    chasKey c t = true ↔ t ∈ c.map Prod.fst := by
  simp only [chasKey, List.any_eq_true, List.mem_map]
  constructor
  · rintro ⟨p, hp, hpt⟩
    exact ⟨p, hp, beq_iff_eq.mp hpt⟩
  · rintro ⟨p, hp, hpt⟩
    exact ⟨p, hp, beq_iff_eq.mpr hpt⟩

theorem nodup_keys_cincr (c : Counter) (t : String)
    (h : (c.map Prod.fst).Nodup) : ((cincr c t).map Prod.fst).Nodup := by
  unfold cincr
  by_cases hk : chasKey c t = true
  · rw [if_pos hk]
    rw [keys_map_of_fst_preserving c _ (fun p => by by_cases hp : (p.1 == t) = true <;> simp [hp])]
    exact h
  · have hk2 : chasKey c t = false := Bool.eq_false_iff.mpr hk
    rw [hk2]
    simp only [Bool.false_eq_true, if_false, List.map_append]
    rw [List.nodup_append]
    refine ⟨h, List.nodup_singleton t, ?_⟩
    intro x hx hxt
    have hxt2 : x = t := by simpa using hxt
    exact hk (chasKey_iff c t |>.mpr (hxt2 ▸ hx))

theorem nodup_keys_csetsub (c : Counter) (t : String) (v : ℤ)
    (h : (c.map Prod.fst).Nodup) : ((csetsub c t v).map Prod.fst).Nodup := by
  unfold csetsub
  by_cases hk : chasKey c t = true
  · rw [if_pos hk]
    rw [keys_map_of_fst_preserving c _ (fun p => by by_cases hp : (p.1 == t) = true <;> simp [hp])]
    exact h
  · have hk2 : chasKey c t = false := Bool.eq_false_iff.mpr hk
    rw [hk2]
    simp only [Bool.false_eq_true, if_false, List.map_append]
    rw [List.nodup_append]
    refine ⟨h, List.nodup_singleton t, ?_⟩
    intro x hx hxt
    have hxt2 : x = t := by simpa using hxt
    exact hk (chasKey_iff c t |>.mpr (hxt2 ▸ hx))

theorem nodup_keys_cupdate (c : Counter) (ts : List String)
    (h : (c.map Prod.fst).Nodup) : ((cupdate c ts).map Prod.fst).Nodup := by
  induction ts generalizing c with
  | nil => exact h
  | cons s rest ih =>
    unfold cupdate
    simp only [List.foldl]
    exact ih (cincr c s) (nodup_keys_cincr c s h)

theorem nodup_keys_csubtractSelf (c : Counter) (pref : List String)
    (h : (c.map Prod.fst).Nodup) :
    ((csubtractSelf c pref).map Prod.fst).Nodup := by
  unfold csubtractSelf
  generalize pref.dedup = l
  induction l generalizing c with
  | nil => exact h
  | cons s rest ih =>
    simp only [List.foldl]
    exact ih _ (nodup_keys_csetsub c s _ h)

/-! ## The append loop of `Vocab.__init__` -/

theorem vocabLoop_itos (min_freq : ℤ) (max_size : Option ℤ)
    (l : List (String × ℤ)) (v : Vocab) :
    ∃ taken : List (String × ℤ),
      (vocabLoop min_freq max_size l v).itos = v.itos ++ taken.map Prod.fst
      ∧ List.IsPrefix taken l
      ∧ ∀ p ∈ taken, min_freq ≤ p.2 := by
  induction l generalizing v with
  | nil => exact ⟨[], by simp [vocabLoop], ⟨[], rfl⟩, by simp⟩
  | cons p rest ih =>
    obtain ⟨w, f⟩ := p
    by_cases hbrk : f < min_freq ∨ max_size = some (v.itos.length : ℤ)
    · refine ⟨[], ?_, ⟨(w, f) :: rest, rfl⟩, by simp⟩
      simp only [vocabLoop, if_pos hbrk]
      simp
    · obtain ⟨tk, h1, h2, h3⟩ := ih ⟨v.itos ++ [w], stoiSet v.stoi w v.itos.length⟩
      refine ⟨(w, f) :: tk, ?_, ?_, ?_⟩
      · simp only [vocabLoop, if_neg hbrk]
        rw [h1]
        simp
      · obtain ⟨t, ht⟩ := h2
        exact ⟨t, by simp [ht]⟩
      · intro q hq
        rcases List.mem_cons.mp hq with rfl | hq2
        · push_neg at hbrk
          exact hbrk.1
        · exact h3 q hq2

/-- Claim C1.  `itos` is `<unk>`, then the specials in the given order, then
the remaining tokens in count-descending order with count ties broken by
ascending lexical token order (`strLe a b` with `a ≠ b`).  The counts are the
ones in the caller's frequency table; the `Nodup` hypothesis states that the
table is a dict (one entry per token). -/
theorem C1_itos_order (counter : Counter) (max_size : Option ℤ)
    (min_freq : ℤ) (specials : List String)
    (hkeys : (counter.map Prod.fst).Nodup) :
    ∃ rest : List String,
      (buildVocab counter max_size min_freq specials).1.itos
        = "<unk>" :: specials ++ rest
      ∧ rest.Pairwise (fun a b =>
          cget counter b < cget counter a
          ∨ (cget counter a = cget counter b ∧ strLe a b = true ∧ a ≠ b)) := by
  have hc2nd : ((csubtractSelf (cupdate counter ("<unk>" :: specials))
        ("<unk>" :: specials)).map Prod.fst).Nodup :=
    nodup_keys_csubtractSelf _ _ (nodup_keys_cupdate _ _ hkeys)
  set pref := "<unk>" :: specials with hpref
  set c2 := csubtractSelf (cupdate counter pref) pref with hc2
  set s1 := iSort tokenLe c2 with hs1
  have hperm1 : List.Perm s1 c2 := iSort_perm _ _
  have P1 : s1.Pairwise (sortRel tokenLe (fun _ _ => True)) :=
    iSort_pairwise _ _ tokenLe_total tokenLe_trans c2 (pairwise_true c2)
  have N1 : (s1.map Prod.fst).Nodup := ((hperm1.map Prod.fst).nodup_iff).mpr hc2nd
  have P1ne : s1.Pairwise (fun p q => p.1 ≠ q.1) := (List.pairwise_map).mp N1
  have P1' : s1.Pairwise (fun p q => tokenLe p q = true ∧ p.1 ≠ q.1) :=
    (P1.and P1ne).imp (fun h => ⟨h.1.1, h.2⟩)
  set waf := iSort freqDescLe s1 with hwaf
  have hperm2 : List.Perm waf s1 := iSort_perm _ _
  have P2 : waf.Pairwise
      (sortRel freqDescLe (fun p q => tokenLe p q = true ∧ p.1 ≠ q.1)) :=
    iSort_pairwise _ _ freqDescLe_total freqDescLe_trans s1 P1'
  obtain ⟨taken, h1, h2, h3⟩ :=
    vocabLoop_itos (max min_freq 1)
      (max_size.map (fun m => m + (pref.length : ℤ))) waf ⟨pref, stoiInit pref⟩
  refine ⟨taken.map Prod.fst, ?_, ?_⟩
  · show (vocabLoop _ _ waf ⟨pref, stoiInit pref⟩).itos = _
    rw [h1]
  · have PWt : taken.Pairwise
        (sortRel freqDescLe (fun p q => tokenLe p q = true ∧ p.1 ≠ q.1)) :=
      P2.sublist h2.sublist
    have hcnt : ∀ p ∈ taken, p.2 = cget counter p.1 := by
      intro p hp
      have hpc2 : p ∈ c2 := hperm1.mem_iff.mp (hperm2.mem_iff.mp (h2.sublist.subset hp))
      have hv : cget c2 p.1 = p.2 := by
        refine cget_eq_of_mem_nodup hc2nd ?_
        rw [Prod.mk.eta]
        exact hpc2
      have hge : (1:ℤ) ≤ p.2 := le_trans (le_max_right min_freq 1) (h3 p hp)
      have hnp : p.1 ∉ pref := by
        intro hmem
        have h0 : cget c2 p.1 = 0 := cget_csubtractSelf_mem _ _ _ hmem
        omega
      have hcc : cget c2 p.1 = cget counter p.1 := by
        rw [hc2, cget_csubtractSelf_not_mem _ _ _ hnp,
          cget_cupdate_not_mem _ _ _ hnp]
      omega
    apply (List.pairwise_map).mpr
    refine PWt.imp_of_mem ?_
    intro p q hp hq hpq
    obtain ⟨hle, htie⟩ := hpq
    have hcp := hcnt p hp
    have hcq := hcnt q hq
    simp only [freqDescLe, decide_eq_true_eq] at hle htie
    by_cases hpq2 : p.2 ≤ q.2
    · right
      obtain ⟨hS1, hS2⟩ := htie hpq2
      refine ⟨by omega, hS1, hS2⟩
    · left
      omega

theorem vocabLoop_length_le (min_freq : ℤ) (m : ℤ) (l : List (String × ℤ))
    (v : Vocab) (h : (v.itos.length : ℤ) ≤ m) :
    (((vocabLoop min_freq (some m) l v).itos.length : ℤ)) ≤ m := by
  induction l generalizing v with
  | nil => exact h
  | cons p rest ih =>
    obtain ⟨w, f⟩ := p
    by_cases hbrk : f < min_freq ∨ (some m : Option ℤ) = some (v.itos.length : ℤ)
    · simp only [vocabLoop, if_pos hbrk]
      exact h
    · simp only [vocabLoop, if_neg hbrk]
      apply ih
      push_neg at hbrk
      have hne : (v.itos.length : ℤ) ≠ m := fun he => hbrk.2 (by rw [he])
      simp only [List.length_append, List.length_cons, List.length_nil]
      push_cast
      omega

/-- Counterexample to claim C6 as stated: with `max_size = 1`, `min_freq = 1`,
one special and one frequent token, the built `itos` is
`["<unk>", "<pad>", "a"]`, of length `3 > max_size`: the bound the code
enforces is `max_size` plus the length of the required prefix (line 78), not
`max_size` itself. -/
theorem C6_counterexample :
    ¬ ((buildVocab [("a", 5)] (some 1) 1 ["<pad>"]).1.itos.length ≤ 1) := by
  decide

/-- Claim C6, amended: for a set, nonnegative `max_size` the built `itos` has
at most `max_size + 1 + len(specials)` entries (`max_size` plus the required
prefix), and the required prefix is never truncated.  (A negative `max_size`
disables the bound entirely, since the loop's stop test is the equality
`len(self.itos) == max_size` on the adjusted bound.) -/
theorem C6_amended (counter : Counter) (m min_freq : ℤ)
    (specials : List String) (hm : 0 ≤ m) :
    (((buildVocab counter (some m) min_freq specials).1.itos.length : ℤ)
        ≤ m + 1 + specials.length)
    ∧ ∃ rest, (buildVocab counter (some m) min_freq specials).1.itos
        = "<unk>" :: specials ++ rest := by
  constructor
  · have hstart : ((("<unk>" :: specials : List String)).length : ℤ)
        ≤ m + (("<unk>" :: specials : List String).length : ℤ) := by omega
    have hb := vocabLoop_length_le (max min_freq 1)
      (m + (("<unk>" :: specials : List String).length : ℤ))
      (iSort freqDescLe (iSort tokenLe
        (csubtractSelf (cupdate counter ("<unk>" :: specials)) ("<unk>" :: specials))))
      ⟨"<unk>" :: specials, stoiInit ("<unk>" :: specials)⟩ hstart
    have hshow : (buildVocab counter (some m) min_freq specials).1
        = vocabLoop (max min_freq 1)
            (some (m + (("<unk>" :: specials : List String).length : ℤ)))
            (iSort freqDescLe (iSort tokenLe
              (csubtractSelf (cupdate counter ("<unk>" :: specials)) ("<unk>" :: specials))))
            ⟨"<unk>" :: specials, stoiInit ("<unk>" :: specials)⟩ := rfl
    rw [hshow]
    refine le_trans hb ?_
    simp only [List.length_cons]
    push_cast
    omega
  · obtain ⟨taken, h1, _, _⟩ := vocabLoop_itos (max min_freq 1)
      (some (m + (("<unk>" :: specials : List String).length : ℤ)))
      (iSort freqDescLe (iSort tokenLe
        (csubtractSelf (cupdate counter ("<unk>" :: specials)) ("<unk>" :: specials))))
      ⟨"<unk>" :: specials, stoiInit ("<unk>" :: specials)⟩
    exact ⟨taken.map Prod.fst, h1⟩

/-- Counterexample to claim C10 as stated: building a `Vocab` from the
counter `{"<unk>": 5}` leaves the caller's counter mapping `"<unk>"` to `0`,
not `5` — the constructor's `update`/`subtract` calls mutate the caller's
counter in place. -/
theorem C10_counterexample :
    cget (buildVocab [("<unk>", 5)] none 1 []).2 "<unk>" = 0
    ∧ cget [("<unk>", 5)] "<unk>" = 5
    ∧ (buildVocab [("<unk>", 5)] none 1 []).2 ≠ [("<unk>", 5)] := by
  decide

/-- Claim C10, amended: construction sets the caller-supplied counter's
count of `"<unk>"` and of every special to `0` (inserting missing ones),
and leaves every other token's count unchanged. -/
theorem C10_amended (counter : Counter) (max_size : Option ℤ) (min_freq : ℤ)
    (specials : List String) :
    (∀ t ∈ ("<unk>" :: specials : List String),
        cget (buildVocab counter max_size min_freq specials).2 t = 0)
    ∧ ∀ t, t ∉ ("<unk>" :: specials : List String) →
        cget (buildVocab counter max_size min_freq specials).2 t
          = cget counter t := by
  constructor
  · intro t ht
    exact cget_csubtractSelf_mem _ _ _ ht
  · intro t ht
    show cget (csubtractSelf (cupdate counter _) _) t = _
    rw [cget_csubtractSelf_not_mem _ _ _ ht, cget_cupdate_not_mem _ _ _ ht]

/-- Claim C8: looking up a token that is not a key of `stoi` returns the
reserved unknown-token index `0` — the `defaultdict`'s factory
`_default_unk_index` — and is a total operation (no error path exists in the
model, which returns a value for every input). -/
theorem C8_unknown_lookup (v : Vocab) (t : String)
    (h : ∀ p ∈ v.stoi, p.1 ≠ t) :
    (stoiLookup v t).1 = default_unk_index ∧ (stoiLookup v t).1 = 0 := by
  have hf : stoiFind v.stoi t = none := by
    unfold stoiFind
    rw [List.find?_eq_none.mpr (fun p hp => by simpa using h p hp)]
    rfl
  constructor <;> simp [stoiLookup, hf, default_unk_index]

/-! ## Lemmas about the `Vectors.cache` parsing loop -/

theorem loadLoop_append (dim : Option ℕ) (rows : List (String × List ℚ))
    (l₁ l₂ : List (String × List ℚ)) :
    loadLoop dim rows (l₁ ++ l₂) =
      match loadLoop dim rows l₁ with
      | .ok st => loadLoop st.1 st.2 l₂
      | .error e => .error e := by
  induction l₁ generalizing dim rows with
  | nil => rfl
  | cons p rest ih =>
    obtain ⟨w, es⟩ := p
    by_cases h1 : dim = none ∧ 1 < es.length
    · simp only [List.cons_append, loadLoop, if_pos h1]
      exact ih _ _
    · by_cases h2 : es.length = 1
      · simp only [List.cons_append, loadLoop, if_neg h1, if_pos h2]
        exact ih _ _
      · by_cases h3 : dim ≠ some es.length
        · simp only [List.cons_append, loadLoop, if_neg h1, if_neg h2, if_pos h3]
        · simp only [List.cons_append, loadLoop, if_neg h1, if_neg h2, if_neg h3]
          exact ih _ _

theorem loadLoop_dim_preserved (d : ℕ) (l : List (String × List ℚ)) :
    ∀ rows dm rows2, loadLoop (some d) rows l = .ok (dm, rows2) → dm = some d := by
  induction l with
  | nil =>
    intro rows dm rows2 h
    simp only [loadLoop] at h
    cases h
    rfl
  | cons p rest ih =>
    obtain ⟨w, es⟩ := p
    intro rows dm rows2 h
    by_cases h1 : (some d : Option ℕ) = none ∧ 1 < es.length
    · exact absurd h1.1 (by simp)
    · by_cases h2 : es.length = 1
      · simp only [loadLoop, if_neg h1, if_pos h2] at h
        exact ih _ _ _ h
      · by_cases h3 : (some d : Option ℕ) ≠ some es.length
        · simp only [loadLoop, if_neg h1, if_neg h2, if_pos h3] at h
          cases h
        · simp only [loadLoop, if_neg h1, if_neg h2, if_neg h3] at h
          exact ih _ _ _ h

theorem loadLoop_none_cons (rows : List (String × List ℚ)) (w : String)
    (es : List ℚ) (rest : List (String × List ℚ)) :
    loadLoop none rows ((w, es) :: rest) =
      if 1 < es.length then loadLoop (some es.length) (rows ++ [(w, es)]) rest
      else if es.length = 1 then loadLoop none rows rest
      else .error "DimensionInconsistency" := by
  show (if (none : Option ℕ) = none ∧ 1 < es.length then
      loadLoop (some es.length) (rows ++ [(w, es)]) rest
    else if es.length = 1 then loadLoop none rows rest
    else if (none : Option ℕ) ≠ some es.length then
      Except.error "DimensionInconsistency"
    else loadLoop none (rows ++ [(w, es)]) rest) = _
  by_cases h1 : 1 < es.length
  · rw [if_pos (⟨rfl, h1⟩ : (none : Option ℕ) = none ∧ 1 < es.length), if_pos h1]
  · rw [if_neg (fun hc => h1 hc.2), if_neg h1]
    by_cases h2 : es.length = 1
    · rw [if_pos h2, if_pos h2]
    · rw [if_neg h2, if_neg h2,
        if_pos (show (none : Option ℕ) ≠ some es.length by simp)]

theorem loadLoop_none_dim (lines : List (String × List ℚ)) :
    ∀ rows dm rows2, loadLoop none rows lines = .ok (dm, rows2) →
      dm = (lines.find? (fun l => decide (1 < l.2.length))).map
        (fun l => l.2.length) := by
  induction lines with
  | nil =>
    intro rows dm rows2 h
    simp only [loadLoop] at h
    cases h
    rfl
  | cons p rest ih =>
    obtain ⟨w, es⟩ := p
    intro rows dm rows2 h
    rw [loadLoop_none_cons] at h
    by_cases h1 : 1 < es.length
    · rw [if_pos h1] at h
      have hd := loadLoop_dim_preserved es.length rest _ _ _ h
      rw [find?_cons_pos (fun l => decide (1 < l.2.length)) (w, es) rest
        (by simpa using h1)]
      simpa using hd
    · rw [if_neg h1] at h
      by_cases h2 : es.length = 1
      · rw [if_pos h2] at h
        rw [find?_cons_neg (fun l => decide (1 < l.2.length)) (w, es) rest
          (decide_eq_false h1)]
        exact ih _ _ _ h
      · rw [if_neg h2] at h
        cases h

theorem loadLoop_skip (dim : Option ℕ) (rows : List (String × List ℚ))
    (w : String) (x : ℚ) (rest : List (String × List ℚ)) :
    loadLoop dim rows ((w, [x]) :: rest) = loadLoop dim rows rest := by
  simp [loadLoop]

/-- Claim C2.  Three facts about the parse loop of `Vectors.cache`:
(1) on a successful load, `dim` is the numeric-field count of the first line
with more than one field (and `none` when no such line exists);
(2) a line with exactly one numeric field is skipped: deleting it from the
input changes nothing (in particular it changes neither `dim` nor the
outcome);
(3) once `dim` is established, appending a line whose field count is neither
`1` nor `dim` makes the whole load fail with `DimensionInconsistency` — no
partial table is returned (the `Except.error` result carries no rows). -/
theorem C2_dim_rules :
    (∀ lines dm rows, loadVectors lines = .ok (dm, rows) →
        dm = (lines.find? (fun l => decide (1 < l.2.length))).map
          (fun l => l.2.length))
    ∧ (∀ pre post w x,
        loadVectors (pre ++ (w, [x]) :: post) = loadVectors (pre ++ post))
    ∧ (∀ pre w es post d rows, loadVectors pre = .ok (some d, rows) →
        es.length ≠ 1 → es.length ≠ d →
        loadVectors (pre ++ (w, es) :: post) = .error "DimensionInconsistency") := by
  refine ⟨?_, ?_, ?_⟩
  · intro lines dm rows h
    exact loadLoop_none_dim lines [] dm rows h
  · intro pre post w x
    unfold loadVectors
    rw [loadLoop_append, loadLoop_append]
    cases loadLoop none [] pre with
    | ok st => exact loadLoop_skip st.1 st.2 w x post
    | error e => rfl
  · intro pre w es post d rows hpre hlen1 hlend
    unfold loadVectors
    rw [loadLoop_append]
    unfold loadVectors at hpre
    rw [hpre]
    have h1 : ¬ ((some d : Option ℕ) = none ∧ 1 < es.length) := by simp
    have h3 : (some d : Option ℕ) ≠ some es.length := by
      intro he
      exact hlend (by injection he with h4; omega)
    simp only [loadLoop, if_neg h1, if_neg hlen1, if_pos h3]

/-- Witness for C2 at concrete inputs: a two-field line fixes `dim = 2`; a
one-field line in the middle is dropped without effect; a later three-field
line aborts the load. -/
theorem C2_dim_rules_witness :
    ((some 2 : Option ℕ)
      = (([("a", [1, 2])] : List (String × List ℚ)).find?
          (fun l => decide (1 < l.2.length))).map (fun l => l.2.length))
    ∧ (loadVectors ([("a", [1, 2])] ++ ("hdr", [(7 : ℚ)]) :: [("c", [4, 5])])
        = loadVectors ([("a", [1, 2])] ++ [("c", [4, 5])]))
    ∧ (loadVectors ([("a", [1, 2])] ++ ("b", [3, 4, 5]) :: [])
        = .error "DimensionInconsistency") := by
  refine ⟨?_, ?_, ?_⟩
  · exact C2_dim_rules.1 [("a", [1, 2])] (some 2) [("a", [1, 2])] rfl
  · exact C2_dim_rules.2.1 [("a", [1, 2])] [("c", [4, 5])] "hdr" 7
  · exact C2_dim_rules.2.2 [("a", [1, 2])] "b" [3, 4, 5] [] 2 [("a", [1, 2])]
      rfl (by decide) (by decide)

/-! ## `stoi` / `itos` alignment -/

theorem enumPairs_length (l : List String) (k : ℕ) :
    (enumPairs l k).length = l.length := by
  induction l generalizing k with
  | nil => rfl
  | cons a as ih => simp [enumPairs, ih]

theorem map_fst_enumPairs (l : List String) (k : ℕ) :
    (enumPairs l k).map Prod.fst = l := by
  induction l generalizing k with
  | nil => rfl
  | cons a as ih => simp [enumPairs, ih]

theorem enumPairs_append (l : List String) (w : String) (k : ℕ) :
    enumPairs (l ++ [w]) k = enumPairs l k ++ [(w, k + l.length)] := by
  induction l generalizing k with
  | nil => simp [enumPairs]
  | cons a as ih =>
    show (a, k) :: enumPairs (as ++ [w]) (k + 1)
      = (a, k) :: (enumPairs as (k + 1) ++ [(w, k + (a :: as).length)])
    rw [ih (k + 1)]
    have harith : k + 1 + as.length = k + (a :: as).length := by
      simp only [List.length_cons]
      omega
    rw [harith]

theorem stoiSet_absent (s : List (String × ℕ)) (w : String) (i : ℕ)
    (h : ∀ p ∈ s, p.1 ≠ w) : stoiSet s w i = s ++ [(w, i)] := by
  unfold stoiSet
  rw [if_neg]
  intro hany
  obtain ⟨p, hp, hpw⟩ := List.any_eq_true.mp hany
  exact h p hp (beq_iff_eq.mp hpw)

theorem stoiInit_go (l : List String) :
    ∀ (k : ℕ) (s : List (String × ℕ)),
      (∀ t ∈ l, ∀ p ∈ s, p.1 ≠ t) → l.Nodup →
      (List.enumFrom k l).foldl (fun s p => stoiSet s p.2 p.1) s
        = s ++ enumPairs l k := by
  induction l with
  | nil => intro k s _ _; simp [enumPairs]
  | cons a as ih =>
    intro k s hfree hnd
    rcases List.nodup_cons.mp hnd with ⟨hna, hnas⟩
    simp only [List.enumFrom, List.foldl]
    rw [stoiSet_absent s a k (hfree a (List.mem_cons_self a as))]
    rw [ih (k + 1) (s ++ [(a, k)]) ?_ hnas]
    · simp [enumPairs]
    · intro t ht p hp
      rcases List.mem_append.mp hp with hps | hpa
      · exact hfree t (List.mem_cons_of_mem a ht) p hps
      · have hpa2 : p = (a, k) := by simpa using hpa
        subst hpa2
        intro he
        have hat : a = t := he
        exact hna (hat ▸ ht)

theorem stoiInit_eq (pref : List String) (h : pref.Nodup) :
    stoiInit pref = enumPairs pref 0 := by
  unfold stoiInit
  have := stoiInit_go pref 0 [] (by intro t _ p hp; cases hp) h
  simpa [List.enum] using this

theorem stoiFind_enumPairs (l : List String) :
    ∀ (k : ℕ) (i : ℕ) (h : i < l.length), l.Nodup →
      stoiFind (enumPairs l k) (l.get ⟨i, h⟩) = some (k + i) := by
  induction l with
  | nil => intro k i h; cases h
  | cons a as ih =>
    intro k i h hnd
    rcases List.nodup_cons.mp hnd with ⟨hna, hnas⟩
    cases i with
    | zero =>
      simp only [enumPairs, List.get, stoiFind]
      rw [find?_cons_pos (fun p => p.1 == a) (a, k) _ (by simp)]
      rfl
    | succ j =>
      have hj : j < as.length := Nat.lt_of_succ_lt_succ h
      have hget : (a :: as).get ⟨j + 1, h⟩ = as.get ⟨j, hj⟩ := rfl
      rw [hget]
      have hne : (a == as.get ⟨j, hj⟩) = false :=
        beq_eq_false_iff_ne.mpr (fun he => hna (he ▸ as.get_mem j hj))
      simp only [enumPairs, stoiFind]
      rw [find?_cons_neg (fun p => p.1 == as.get ⟨j, hj⟩) (a, k) _ hne]
      have := ih (k + 1) j hj hnas
      unfold stoiFind at this
      rw [this]
      congr 1
      omega

theorem any_key_iff_mem (s : List (String × ℕ)) (w : String) :
    s.any (fun p => p.1 == w) = true ↔ w ∈ s.map Prod.fst := by
  simp only [List.any_eq_true, List.mem_map]
  constructor
  · rintro ⟨p, hp, hpw⟩
    exact ⟨p, hp, beq_iff_eq.mp hpw⟩
  · rintro ⟨p, hp, hpw⟩
    exact ⟨p, hp, beq_iff_eq.mpr hpw⟩

theorem vocabInv_append (v : Vocab) (w : String) (hv : vocabInv v)
    (hw : w ∉ v.itos) :
    vocabInv ⟨v.itos ++ [w], stoiSet v.stoi w v.itos.length⟩ := by
  obtain ⟨hs, hnd⟩ := hv
  constructor
  · show stoiSet v.stoi w v.itos.length = enumPairs (v.itos ++ [w]) 0
    rw [stoiSet_absent]
    · rw [hs, enumPairs_append]
      simp
    · intro p hp
      rw [hs] at hp
      have hpm : p.1 ∈ v.itos := by
        rw [← map_fst_enumPairs v.itos 0]
        exact List.mem_map_of_mem Prod.fst hp
      exact fun he => hw (he ▸ hpm)
  · show (v.itos ++ [w]).Nodup
    simp [List.nodup_append, hnd, hw]

theorem vocabLoop_inv (mf : ℤ) (hmf : 1 ≤ mf) (ms : Option ℤ) :
    ∀ (l : List (String × ℤ)) (v : Vocab), vocabInv v →
      (l.map Prod.fst).Nodup →
      (∀ p ∈ l, 1 ≤ p.2 → p.1 ∉ v.itos) →
      vocabInv (vocabLoop mf ms l v) := by
  intro l
  induction l with
  | nil => intro v hv _ _; exact hv
  | cons p rest ih =>
    intro v hv hl hfree
    obtain ⟨w, f⟩ := p
    by_cases hbrk : f < mf ∨ ms = some (v.itos.length : ℤ)
    · simp only [vocabLoop, if_pos hbrk]
      exact hv
    · simp only [vocabLoop, if_neg hbrk]
      push_neg at hbrk
      have hf1 : (1:ℤ) ≤ f := le_trans hmf hbrk.1
      have hwni : w ∉ v.itos := hfree (w, f) (List.mem_cons_self _ _) hf1
      have hl2 : ((w, f).1 :: rest.map Prod.fst).Nodup := by simpa using hl
      rcases List.nodup_cons.mp hl2 with ⟨hwr, hrest⟩
      apply ih _ (vocabInv_append v w hv hwni) hrest
      intro q hq hq2
      have hqni : q.1 ∉ v.itos := hfree q (List.mem_cons_of_mem _ hq) hq2
      have hqw : q.1 ≠ w := by
        intro he
        apply hwr
        rw [← he]
        exact List.mem_map.mpr ⟨q, hq, rfl⟩
      show q.1 ∉ v.itos ++ [w]
      simp [List.mem_append, hqni, hqw]

theorem extend_fold_inv (ws : List String) :
    ∀ v : Vocab, vocabInv v →
      vocabInv (ws.foldl (fun acc w =>
        if acc.stoi.any (fun p => p.1 == w) then acc
        else ⟨acc.itos ++ [w], stoiSet acc.stoi w acc.itos.length⟩) v) := by
  induction ws with
  | nil => intro v hv; exact hv
  | cons w rest ih =>
    intro v hv
    simp only [List.foldl]
    by_cases hk : v.stoi.any (fun p => p.1 == w) = true
    · rw [if_pos hk]
      exact ih v hv
    · rw [if_neg hk]
      apply ih
      apply vocabInv_append v w hv
      intro hmem
      apply hk
      rw [any_key_iff_mem, hv.1, map_fst_enumPairs]
      exact hmem

theorem extend_inv (v other : Vocab) (b : Bool) (hv : vocabInv v) :
    vocabInv (extend v other b) :=
  extend_fold_inv _ v hv

theorem stoiLookup_present (v : Vocab) (t : String)
    (h : v.stoi.any (fun p => p.1 == t) = true) : (stoiLookup v t).2 = v := by
  obtain ⟨p, hp, hpt⟩ := List.any_eq_true.mp h
  have hne : stoiFind v.stoi t ≠ none := by
    unfold stoiFind
    cases hf : v.stoi.find? (fun p => p.1 == t)
    · rw [List.find?_eq_none] at hf
      exact absurd hpt (by simpa using hf p hp)
    · simp
  unfold stoiLookup
  cases hf : stoiFind v.stoi t
  · exact absurd hf hne
  · rfl

theorem runOps_inv (ops : List VocabOp) :
    ∀ v : Vocab, vocabInv v → opsSafe v ops = true →
      vocabInv (runOps v ops) := by
  induction ops with
  | nil => intro v hv _; exact hv
  | cons op rest ih =>
    intro v hv hsafe
    simp only [opsSafe, Bool.and_eq_true] at hsafe
    obtain ⟨hop, hrest⟩ := hsafe
    show vocabInv (runOps (applyOp v op) rest)
    cases op with
    | extendOp o b => exact ih _ (extend_inv v o b hv) hrest
    | lookupOp t =>
      have hstate : applyOp v (VocabOp.lookupOp t) = v := by
        show (stoiLookup v t).2 = v
        exact stoiLookup_present v t hop
      rw [hstate] at hrest ⊢
      exact ih _ hv hrest

theorem buildVocab_inv (counter : Counter) (max_size : Option ℤ)
    (min_freq : ℤ) (specials : List String)
    (hsp : specials.Nodup) (hunk : "<unk>" ∉ specials)
    (hkeys : (counter.map Prod.fst).Nodup) :
    vocabInv (buildVocab counter max_size min_freq specials).1 := by
  have hprefnd : ("<unk>" :: specials : List String).Nodup :=
    List.nodup_cons.mpr ⟨hunk, hsp⟩
  have hc2nd : ((csubtractSelf (cupdate counter ("<unk>" :: specials))
        ("<unk>" :: specials)).map Prod.fst).Nodup :=
    nodup_keys_csubtractSelf _ _ (nodup_keys_cupdate _ _ hkeys)
  set pref := "<unk>" :: specials with hpref
  set c2 := csubtractSelf (cupdate counter pref) pref with hc2
  set waf := iSort freqDescLe (iSort tokenLe c2) with hwaf
  have hperm : List.Perm waf c2 := (iSort_perm _ _).trans (iSort_perm _ _)
  have hwafnd : (waf.map Prod.fst).Nodup :=
    ((hperm.map Prod.fst).nodup_iff).mpr hc2nd
  show vocabInv (vocabLoop (max min_freq 1) _ waf ⟨pref, stoiInit pref⟩)
  apply vocabLoop_inv (max min_freq 1) (le_max_right _ _) _ waf _ ?_ hwafnd ?_
  · exact ⟨stoiInit_eq pref hprefnd, hprefnd⟩
  · intro p hp hp2
    have hpc2 : p ∈ c2 := hperm.mem_iff.mp hp
    have hv : cget c2 p.1 = p.2 := by
      refine cget_eq_of_mem_nodup hc2nd ?_
      rw [Prod.mk.eta]
      exact hpc2
    show p.1 ∉ pref
    intro hmem
    have h0 : cget c2 p.1 = 0 := cget_csubtractSelf_mem _ _ _ hmem
    omega

/-- Counterexample to claim C7 as stated: `stoi` is a
`defaultdict(_default_unk_index)`, so a single `stoi` lookup of a token
absent from the vocabulary (here `"x"` on the vocabulary built from an empty
counter) inserts that token with index `0`, after which
`len(itos) = 1 ≠ 2 = len(stoi)`. -/
theorem C7_counterexample :
    ¬ ((runOps (buildVocab [] none 1 []).1 [VocabOp.lookupOp "x"]).itos.length
      = (runOps (buildVocab [] none 1 []).1 [VocabOp.lookupOp "x"]).stoi.length) := by
  decide

/-- Claim C7, amended: for a vocabulary built from a dict-backed counter
with duplicate-free specials not containing `"<unk>"`, after any sequence of
`extend` calls and of `stoi` lookups of tokens present at lookup time,
`len(itos) = len(stoi)` and `stoi[itos[i]] = i` for every valid `i`.  (A
lookup of an absent token instead inserts it with index `0`, growing `stoi`
— see the counterexample; duplicated specials likewise break the invariant
at construction time.) -/
theorem C7_amended (counter : Counter) (max_size : Option ℤ) (min_freq : ℤ)
    (specials : List String) (ops : List VocabOp)
    (hsp : specials.Nodup) (hunk : "<unk>" ∉ specials)
    (hkeys : (counter.map Prod.fst).Nodup)
    (hsafe : opsSafe (buildVocab counter max_size min_freq specials).1 ops
      = true) :
    (runOps (buildVocab counter max_size min_freq specials).1 ops).itos.length
      = (runOps (buildVocab counter max_size min_freq specials).1 ops).stoi.length
    ∧ ∀ i (h : i <
        (runOps (buildVocab counter max_size min_freq specials).1 ops).itos.length),
        stoiFind
          (runOps (buildVocab counter max_size min_freq specials).1 ops).stoi
          ((runOps (buildVocab counter max_size min_freq specials).1 ops).itos.get
            ⟨i, h⟩)
          = some i := by
  obtain ⟨hs, hnd⟩ := runOps_inv ops _
    (buildVocab_inv counter max_size min_freq specials hsp hunk hkeys) hsafe
  constructor
  · rw [hs, enumPairs_length]
  · intro i h
    rw [hs]
    have := stoiFind_enumPairs
      (runOps (buildVocab counter max_size min_freq specials).1 ops).itos
      0 i h hnd
    simpa using this

/-- Witness for C7 (amended) at a concrete input: counter `{"a": 2}`,
specials `["<pad>"]`, then an `extend` with a vocabulary containing `"z"`
and a lookup of the present token `"a"`. -/
theorem C7_amended_witness :
    ((["<pad>"] : List String).Nodup)
    ∧ ("<unk>" ∉ (["<pad>"] : List String))
    ∧ (([("a", 2)] : Counter).map Prod.fst).Nodup
    ∧ opsSafe (buildVocab [("a", 2)] none 1 ["<pad>"]).1
        [VocabOp.extendOp ⟨["z"], [("z", 0)]⟩ false, VocabOp.lookupOp "a"] = true
    ∧ ((runOps (buildVocab [("a", 2)] none 1 ["<pad>"]).1
          [VocabOp.extendOp ⟨["z"], [("z", 0)]⟩ false,
           VocabOp.lookupOp "a"]).itos.length
        = (runOps (buildVocab [("a", 2)] none 1 ["<pad>"]).1
          [VocabOp.extendOp ⟨["z"], [("z", 0)]⟩ false,
           VocabOp.lookupOp "a"]).stoi.length
      ∧ ∀ i (h : i < (runOps (buildVocab [("a", 2)] none 1 ["<pad>"]).1
          [VocabOp.extendOp ⟨["z"], [("z", 0)]⟩ false,
           VocabOp.lookupOp "a"]).itos.length),
          stoiFind (runOps (buildVocab [("a", 2)] none 1 ["<pad>"]).1
            [VocabOp.extendOp ⟨["z"], [("z", 0)]⟩ false,
             VocabOp.lookupOp "a"]).stoi
            ((runOps (buildVocab [("a", 2)] none 1 ["<pad>"]).1
              [VocabOp.extendOp ⟨["z"], [("z", 0)]⟩ false,
               VocabOp.lookupOp "a"]).itos.get ⟨i, h⟩) = some i) :=
  ⟨by decide, by decide, by decide, by decide,
    C7_amended [("a", 2)] none 1 ["<pad>"]
      [VocabOp.extendOp ⟨["z"], [("z", 0)]⟩ false, VocabOp.lookupOp "a"]
      (by decide) (by decide) (by decide) (by decide)⟩

/-! ## `closest` -/

theorem mapM_option_eq_some {α β : Type} (f : α → Option β) (h : α → β) :
    ∀ l : List α, (∀ a ∈ l, f a = some (h a)) → l.mapM f = some (l.map h) := by
  intro l
  induction l with
  | nil => intro _; rfl
  | cons a rest ih =>
    intro hl
    rw [List.mapM_cons, hl a (List.mem_cons_self a rest),
      ih (fun b hb => hl b (List.mem_cons_of_mem a hb))]
    rfl

theorem pairwise_take_drop {α : Type} (R : α → α → Prop) (l : List α) (n : ℕ)
    (h : l.Pairwise R) : ∀ x ∈ l.take n, ∀ y ∈ l.drop n, R x y := by
  rw [← List.take_append_drop n l, List.pairwise_append] at h
  exact h.2.2

/-- Claim C3.  `closest` computes the distance from the query vector to
every row of the table (the unsorted distance list is a permutation of the
per-token map), and returns the first `n` entries of its stable sort by
distance: the result is the `n` smallest distances in ascending order
(every kept entry is `≤` every dropped one), and entries with equal
distance keep the table's original order (the filter at any fixed distance
value is unchanged by the sort).  `rows` names the row vectors so that the
module-level `get_word` — which raises on a missing token — succeeds for
every table token. -/
theorem C3_closest (g : Vectors) (dist : List ℚ → List ℚ → ℚ) (vec : List ℚ)
    (n : ℕ) (rows : String → List ℚ)
    (hrows : ∀ w ∈ g.itos, get_word g w = some (rows w)) :
    ∃ sds : List (String × ℚ),
      closest g dist vec n = some (sds.take n)
      ∧ List.Perm sds (g.itos.map (fun w => (w, dist vec (rows w))))
      ∧ sds.Pairwise (fun a b => a.2 ≤ b.2)
      ∧ (∀ x ∈ sds.take n, ∀ y ∈ sds.drop n, x.2 ≤ y.2)
      ∧ (∀ q : ℚ, sds.filter (fun x => decide (x.2 = q))
          = (g.itos.map (fun w => (w, dist vec (rows w)))).filter
              (fun x => decide (x.2 = q))) := by
  set ds := g.itos.map (fun w => (w, dist vec (rows w))) with hds
  have hmapM : g.itos.mapM
      (fun w => (get_word g w).map (fun wv => (w, dist vec wv))) = some ds := by
    apply mapM_option_eq_some
    intro w hw
    rw [hrows w hw]
    rfl
  have hsorted : (iSort distLe ds).Pairwise (fun a b => a.2 ≤ b.2) := by
    have hP := iSort_pairwise distLe (fun _ _ => True) distLe_total
      distLe_trans ds (pairwise_true ds)
    refine hP.imp ?_
    intro a b hab
    have h1 := hab.1
    simpa [distLe] using h1
  refine ⟨iSort distLe ds, ?_, iSort_perm _ _, hsorted, ?_, ?_⟩
  · unfold closest
    rw [hmapM]
    rfl
  · exact pairwise_take_drop _ _ n hsorted
  · intro q
    apply filter_iSort
    intro a b hpa hle
    simp only [decide_eq_true_eq] at hpa
    simp only [distLe] at hle
    have hlt : ¬ (a.2 ≤ b.2) := by
      intro hab
      rw [decide_eq_true hab] at hle
      cases hle
    simp only [decide_eq_false_iff_not]
    intro hbq
    exact hlt (by rw [hpa, hbq])

/-- Witness for C3 at a concrete input: the two-row table `gEx`, the
pluggable metric `distEx` and the query vector `[0]`. -/
theorem C3_closest_witness :
    (∀ w ∈ gEx.itos, get_word gEx w = some (rowsEx w))
    ∧ ∃ sds : List (String × ℚ),
      closest gEx distEx [0] 2 = some (sds.take 2)
      ∧ List.Perm sds (gEx.itos.map (fun w => (w, distEx [0] (rowsEx w))))
      ∧ sds.Pairwise (fun a b => a.2 ≤ b.2)
      ∧ (∀ x ∈ sds.take 2, ∀ y ∈ sds.drop 2, x.2 ≤ y.2)
      ∧ (∀ q : ℚ, sds.filter (fun x => decide (x.2 = q))
          = (gEx.itos.map (fun w => (w, distEx [0] (rowsEx w)))).filter
              (fun x => decide (x.2 = q))) :=
  ⟨by decide, C3_closest gEx distEx [0] 2 rowsEx (by decide)⟩

/-! ## The intersection loop -/

/-- Counterexample to claim C4 as stated: the loop intersects Python sets of
`(token, distance)` pairs, not sets of tokens.  On the table `gEx` with the
query tokens `["a", "b"]` and `n = 2`, token `"a"` is among the `2` nearest
neighbors of both queries (it appears in both `closest` lists), yet the
computed intersection is empty, because `"a"` carries distance `0` in one
list and `9` in the other.  (With the real `torch` objects the sets compare
tensors by identity, so the intersection is empty even for equal distance
values; the model charitably uses value equality.) -/
theorem C4_counterexample :
    intersectNeighbors gEx distEx ["a", "b"] 2 = some ∅
    ∧ closest gEx distEx [0] 2 = some [("a", 0), ("b", 9)]
    ∧ closest gEx distEx [3] 2 = some [("b", 0), ("a", 9)]
    ∧ get_word gEx (pyLower "a") = some [0]
    ∧ get_word gEx (pyLower "b") = some [3] := by
  decide

theorem interLoop (g : Vectors) (dist : List ℚ → List ℚ → ℚ) (n : ℕ)
    (f : String → Finset (String × ℚ)) :
    ∀ (ws : List String) (acc : Finset (String × ℚ)),
      (∀ w ∈ ws, ∃ v c, get_word g (pyLower w) = some v
        ∧ closest g dist v n = some c ∧ c.toFinset = f w) →
      ∃ s, ws.foldlM (fun acc wi => do
          let vi ← get_word g (pyLower wi)
          let ci ← closest g dist vi n
          pure (acc ∩ ci.toFinset)) acc = some s
        ∧ ∀ x, x ∈ s ↔ x ∈ acc ∧ ∀ w ∈ ws, x ∈ f w := by
  intro ws
  induction ws with
  | nil =>
    intro acc _
    refine ⟨acc, rfl, ?_⟩
    intro x
    simp
  | cons w rest ih =>
    intro acc hf
    obtain ⟨v, c, hv, hc, hcf⟩ := hf w (List.mem_cons_self _ _)
    obtain ⟨s, hs, hiff⟩ := ih (acc ∩ f w)
      (fun b hb => hf b (List.mem_cons_of_mem w hb))
    refine ⟨s, ?_, ?_⟩
    · simpa [List.foldlM_cons, hv, hc, hcf] using hs
    · intro x
      rw [hiff x]
      simp only [Finset.mem_inter, List.mem_cons, and_assoc]
      constructor
      · rintro ⟨h1, h2, h3⟩
        exact ⟨h1, fun b hb => by
          rcases hb with rfl | hb2
          · exact h2
          · exact h3 b hb2⟩
      · rintro ⟨h1, h2⟩
        exact ⟨h1, h2 w (Or.inl rfl), fun b hb => h2 b (Or.inr hb)⟩

/-- Claim C4, amended: the loop returns the intersection of the per-token
sets of `(token, distance)` pairs produced by `closest` — a pair is in the
result iff it lies in every query token's neighbor list (the seeding with
the first token's set is absorbed, since the loop intersects with it again).
A token that is among the `n` nearest of every query token but at different
distances is therefore not in the result, contrary to the claim as stated. -/
theorem C4_amended (g : Vectors) (dist : List ℚ → List ℚ → ℚ)
    (words : List String) (n : ℕ) (f : String → Finset (String × ℚ))
    (hne : words ≠ [])
    (hf : ∀ w ∈ words, ∃ v c, get_word g (pyLower w) = some v
        ∧ closest g dist v n = some c ∧ c.toFinset = f w) :
    ∃ s, intersectNeighbors g dist words n = some s
      ∧ ∀ x, x ∈ s ↔ ∀ w ∈ words, x ∈ f w := by
  cases words with
  | nil => exact absurd rfl hne
  | cons w0 rest =>
    obtain ⟨v0, c0, hv0, hc0, hcf0⟩ := hf w0 (List.mem_cons_self _ _)
    obtain ⟨s, hs, hiff⟩ := interLoop g dist n f (w0 :: rest) c0.toFinset hf
    refine ⟨s, ?_, ?_⟩
    · show (do
        let v0 ← get_word g (pyLower w0)
        let c0 ← closest g dist v0 n
        (w0 :: rest).foldlM (fun acc wi => do
          let vi ← get_word g (pyLower wi)
          let ci ← closest g dist vi n
          pure (acc ∩ ci.toFinset)) c0.toFinset) = some s
      rw [hv0]
      show (do
        let c0A ← closest g dist v0 n
        (w0 :: rest).foldlM (fun acc wi => do
          let vi ← get_word g (pyLower wi)
          let ci ← closest g dist vi n
          pure (acc ∩ ci.toFinset)) c0A.toFinset) = some s
      rw [hc0]
      exact hs
    · intro x
      rw [hiff x, hcf0]
      constructor
      · rintro ⟨_, h2⟩
        exact h2
      · intro h2
        exact ⟨h2 w0 (List.mem_cons_self _ _), h2⟩

/-- Witness for C4 (amended) at a concrete input: on `gEx` with query
tokens `["a", "b"]` and `n = 2`, the pair-set intersection is empty, and
indeed no pair lies in both neighbor sets. -/
theorem C4_amended_witness :
    ((["a", "b"] : List String) ≠ [])
    ∧ (∀ w ∈ (["a", "b"] : List String), ∃ v c,
        get_word gEx (pyLower w) = some v
        ∧ closest gEx distEx v 2 = some c ∧ c.toFinset = fEx w)
    ∧ ∃ s, intersectNeighbors gEx distEx ["a", "b"] 2 = some s
      ∧ ∀ x, x ∈ s ↔ ∀ w ∈ (["a", "b"] : List String), x ∈ fEx w := by
  have hf : ∀ w ∈ (["a", "b"] : List String), ∃ v c,
      get_word gEx (pyLower w) = some v
      ∧ closest gEx distEx v 2 = some c ∧ c.toFinset = fEx w := by
    intro w hw
    rcases List.mem_cons.mp hw with rfl | hw2
    · exact ⟨[0], [("a", 0), ("b", 9)], by decide, by decide, by decide⟩
    · rcases List.mem_cons.mp hw2 with rfl | hw3
      · exact ⟨[3], [("b", 0), ("a", 9)], by decide, by decide, by decide⟩
      · cases hw3
  exact ⟨by decide, hf, C4_amended gEx distEx ["a", "b"] 2 fEx (by decide) hf⟩

/-! ## The aggregation loop -/

theorem foldlM_option_eq_foldl {α β : Type} (f : β → α → Option β)
    (h : β → α → β) :
    ∀ l : List α, (∀ a ∈ l, ∀ b, f b a = some (h b a)) →
      ∀ b, l.foldlM f b = some (l.foldl h b) := by
  intro l
  induction l with
  | nil => intro _ b; rfl
  | cons a rest ih =>
    intro hl b
    rw [List.foldlM_cons, hl a (List.mem_cons_self a rest) b]
    exact ih (fun x hx => hl x (List.mem_cons_of_mem a hx)) (h b a)

theorem toFinset_dedup_list (l : List String) :
    l.dedup.toFinset = l.toFinset := by
  ext a
  simp [List.mem_toFinset, List.mem_dedup]

theorem sum_count_dedup (words : List String) :
    (words.dedup.map (fun u => words.count u)).sum = words.length := by
  rw [← List.sum_toFinset (fun u => words.count u) words.nodup_dedup,
    toFinset_dedup_list]
  exact List.sum_toFinset_count_eq_length words

/-- Claim C5.  The aggregation loop: (1) fails (raises `IndexError` on
`unique_words[0]`, modelled as `none`) exactly when the word list is empty —
since the per-token counts are occurrence counts of a word list, the
"all counts zero" case of the claim cannot arise; (2) otherwise it returns
the sum over distinct tokens of `count • vectorOf(token)` divided by the
total number of word occurrences; (3) that divisor equals the sum of the
counts, not the number of distinct tokens; and (4) with all counts `1`
(a duplicate-free word list) the result is the unweighted mean of the
vectors. -/
theorem C5_weightedAggregate (g : Vectors) (words : List String)
    (rows : String → List ℚ)
    (hrows : ∀ w ∈ words, get_word g (pyLower w) = some (rows w)) :
    (words = [] → weightedAggregate g words = none)
    ∧ (words ≠ [] → weightedAggregate g words
        = some (divVec (vsumNE (words.dedup.map
            (fun u => smulVec ((words.count u : ℤ) : ℚ) (rows u))))
          ((words.length : ℤ) : ℚ)))
    ∧ ((words.dedup.map (fun u => words.count u)).sum = words.length)
    ∧ (words.Nodup → words ≠ [] → weightedAggregate g words
        = some (divVec (vsumNE (words.map rows)) ((words.length : ℤ) : ℚ))) := by
  have hmain : words ≠ [] → weightedAggregate g words
      = some (divVec (vsumNE (words.dedup.map
          (fun u => smulVec ((words.count u : ℤ) : ℚ) (rows u))))
        ((words.length : ℤ) : ℚ)) := by
    intro hne
    have hdne : words.dedup ≠ [] := fun hd => hne ((List.dedup_eq_nil _).mp hd)
    obtain ⟨u0, us, hd⟩ := List.exists_cons_of_ne_nil hdne
    have hu0 : u0 ∈ words := List.mem_dedup.mp (hd ▸ List.mem_cons_self u0 us)
    have hus : ∀ u ∈ us, u ∈ words := fun u hu =>
      List.mem_dedup.mp (hd ▸ List.mem_cons_of_mem u0 hu)
    unfold weightedAggregate
    rw [hd]
    show (do
      let v0 ← get_word g (pyLower u0)
      let s ← us.foldlM (fun acc ui => do
        let vi ← get_word g (pyLower ui)
        pure (addVec acc (smulVec ((words.count ui : ℤ) : ℚ) vi)))
        (smulVec ((words.count u0 : ℤ) : ℚ) v0)
      pure (divVec s ((words.length : ℤ) : ℚ))) = _
    rw [hrows u0 hu0]
    show (do
      let s ← us.foldlM (fun acc ui => do
        let vi ← get_word g (pyLower ui)
        pure (addVec acc (smulVec ((words.count ui : ℤ) : ℚ) vi)))
        (smulVec ((words.count u0 : ℤ) : ℚ) (rows u0))
      pure (divVec s ((words.length : ℤ) : ℚ))) = _
    rw [foldlM_option_eq_foldl
      (fun acc ui => do
        let vi ← get_word g (pyLower ui)
        pure (addVec acc (smulVec ((words.count ui : ℤ) : ℚ) vi)))
      (fun acc ui => addVec acc (smulVec ((words.count ui : ℤ) : ℚ) (rows ui)))
      us ?_ (smulVec ((words.count u0 : ℤ) : ℚ) (rows u0))]
    · simp only [vsumNE, List.map_cons, List.foldl_map]
      rfl
    · intro ui hui b
      show (do
        let vi ← get_word g (pyLower ui)
        pure (addVec b (smulVec ((words.count ui : ℤ) : ℚ) vi))) = _
      rw [hrows ui (hus ui hui)]
      rfl
  refine ⟨?_, hmain, sum_count_dedup words, ?_⟩
  · intro h
    subst h
    rfl
  · intro hnd hne
    rw [hmain hne]
    have hded : words.dedup = words := List.dedup_eq_self.mpr hnd
    rw [hded]
    have hmap : words.map (fun u => smulVec ((words.count u : ℤ) : ℚ) (rows u))
        = words.map rows := by
      apply List.map_congr_left
      intro u hu
      rw [List.count_eq_one_of_mem hnd hu]
      show smulVec ((1 : ℚ)) (rows u) = rows u
      unfold smulVec
      simp
    rw [hmap]

/-- Witness for C5 at a concrete input: the table `gEx` with the word list
`["b", "a", "b"]` (counts `b ↦ 2`, `a ↦ 1`, total `3`). -/
theorem C5_weightedAggregate_witness :
    (∀ w ∈ (["b", "a", "b"] : List String),
      get_word gEx (pyLower w) = some (rowsEx w))
    ∧ ((["b", "a", "b"] : List String) = [] →
        weightedAggregate gEx ["b", "a", "b"] = none)
    ∧ ((["b", "a", "b"] : List String) ≠ [] →
        weightedAggregate gEx ["b", "a", "b"]
        = some (divVec (vsumNE ((["b", "a", "b"] : List String).dedup.map
            (fun u => smulVec (((["b", "a", "b"] : List String).count u : ℤ) : ℚ)
              (rowsEx u))))
          (((["b", "a", "b"] : List String).length : ℤ) : ℚ)))
    ∧ (((["b", "a", "b"] : List String).dedup.map
        (fun u => (["b", "a", "b"] : List String).count u)).sum
        = (["b", "a", "b"] : List String).length)
    ∧ ((["b", "a", "b"] : List String).Nodup →
        (["b", "a", "b"] : List String) ≠ [] →
        weightedAggregate gEx ["b", "a", "b"]
        = some (divVec (vsumNE ((["b", "a", "b"] : List String).map rowsEx))
          (((["b", "a", "b"] : List String).length : ℤ) : ℚ))) :=
  ⟨by decide, (C5_weightedAggregate gEx ["b", "a", "b"] rowsEx (by decide)).1,
    (C5_weightedAggregate gEx ["b", "a", "b"] rowsEx (by decide)).2.1,
    (C5_weightedAggregate gEx ["b", "a", "b"] rowsEx (by decide)).2.2.1,
    (C5_weightedAggregate gEx ["b", "a", "b"] rowsEx (by decide)).2.2.2⟩

/-! ## `Vectors.__getitem__` -/

/-- Claim C9.  `Vectors.__getitem__`: for a token present in `stoi` (at a
valid row index) the table row is returned; for an absent token the result
is `unk_init` applied to a fresh `dim`-sized tensor (with the default
`unk_init` this is the all-zero vector of length `dim`), and the token is
not inserted — the returned object is the unchanged table in both cases. -/
theorem C9_vectorsGetItem (g : Vectors) (t : String) :
    (∀ i, stoiFind g.stoi t = some i → ∀ h : i < g.vectors.length,
        vectorsGetItem g t = (some (g.vectors.get ⟨i, h⟩), g))
    ∧ (stoiFind g.stoi t = none →
        vectorsGetItem g t = (some (g.unk_init g.dim), g))
    ∧ (g.unk_init = defaultUnkInit → stoiFind g.stoi t = none →
        (vectorsGetItem g t).1 = some (List.replicate g.dim 0))
    ∧ (vectorsGetItem g t).2 = g := by
  refine ⟨?_, ?_, ?_, ?_⟩
  · intro i hi h
    unfold vectorsGetItem
    rw [hi]
    show (g.vectors.get? i, g) = (some (g.vectors.get ⟨i, h⟩), g)
    rw [List.get?_eq_get h]
  · intro hn
    unfold vectorsGetItem
    rw [hn]
  · intro hu hn
    unfold vectorsGetItem
    rw [hn, hu]
    rfl
  · unfold vectorsGetItem
    cases stoiFind g.stoi t <;> rfl

/-- Witness for C9 on the concrete table `gEx`: the present token `"a"`
returns its row `[0]` with the table unchanged; the absent token `"zz"`
returns the default zero vector without being inserted. -/
theorem C9_vectorsGetItem_witness :
    vectorsGetItem gEx "a" = (some [0], gEx)
    ∧ vectorsGetItem gEx "zz" = (some [0], gEx)
    ∧ (vectorsGetItem gEx "zz").1 = some (List.replicate gEx.dim 0)
    ∧ (vectorsGetItem gEx "a").2 = gEx := by
  have h := C9_vectorsGetItem gEx "a"
  have h2 := C9_vectorsGetItem gEx "zz"
  refine ⟨?_, ?_, h2.2.2.1 rfl (by decide), h.2.2.2⟩
  · rw [h.1 0 (by decide) (by decide)]
    rfl
  · rw [h2.2.1 (by decide)]
    rfl

/-- Witness for C1 on the spec's own example: counts
`{"a": 5, "b": 5, "c": 1}`, one special `"<pad>"`, `min_freq = 2`. -/
theorem C1_itos_order_witness :
    ((([("a", 5), ("b", 5), ("c", 1)] : Counter).map Prod.fst).Nodup)
    ∧ ∃ rest : List String,
        (buildVocab [("a", 5), ("b", 5), ("c", 1)] none 2 ["<pad>"]).1.itos
          = "<unk>" :: ["<pad>"] ++ rest
        ∧ rest.Pairwise (fun a b =>
            cget [("a", 5), ("b", 5), ("c", 1)] b
              < cget [("a", 5), ("b", 5), ("c", 1)] a
            ∨ (cget [("a", 5), ("b", 5), ("c", 1)] a
                = cget [("a", 5), ("b", 5), ("c", 1)] b
              ∧ strLe a b = true ∧ a ≠ b)) :=
  ⟨by decide,
    C1_itos_order [("a", 5), ("b", 5), ("c", 1)] none 2 ["<pad>"] (by decide)⟩

/-- Witness for C6 (amended) at a concrete input: `max_size = 1` with two
frequent tokens keeps the prefix and exactly one appended token. -/
theorem C6_amended_witness :
    ((0:ℤ) ≤ 1)
    ∧ ((((buildVocab [("a", 5), ("b", 4)] (some 1) 1 ["<pad>"]).1.itos.length : ℤ)
        ≤ 1 + 1 + (["<pad>"] : List String).length)
      ∧ ∃ rest, (buildVocab [("a", 5), ("b", 4)] (some 1) 1 ["<pad>"]).1.itos
          = "<unk>" :: ["<pad>"] ++ rest) :=
  ⟨by decide, C6_amended [("a", 5), ("b", 4)] 1 1 ["<pad>"] (by decide)⟩

/-- Witness for C8 at a concrete input: looking up `"zebra"` in a vocabulary
that does not contain it returns index `0`. -/
theorem C8_unknown_lookup_witness :
    (∀ p ∈ (⟨["<unk>"], [("<unk>", 0)]⟩ : Vocab).stoi, p.1 ≠ "zebra")
    ∧ ((stoiLookup ⟨["<unk>"], [("<unk>", 0)]⟩ "zebra").1 = default_unk_index
      ∧ (stoiLookup ⟨["<unk>"], [("<unk>", 0)]⟩ "zebra").1 = 0) :=
  ⟨by decide, C8_unknown_lookup ⟨["<unk>"], [("<unk>", 0)]⟩ "zebra" (by decide)⟩

/-- Witness for C10 (amended) at a concrete input: counter `{"x": 3}` with
one special; after construction `"<unk>"` and `"<pad>"` map to `0` in the
caller's counter and `"x"` keeps its count. -/
theorem C10_amended_witness :
    (∀ t ∈ ("<unk>" :: ["<pad>"] : List String),
        cget (buildVocab [("x", 3)] none 1 ["<pad>"]).2 t = 0)
    ∧ ∀ t, t ∉ ("<unk>" :: ["<pad>"] : List String) →
        cget (buildVocab [("x", 3)] none 1 ["<pad>"]).2 t = cget [("x", 3)] t :=
  C10_amended [("x", 3)] none 1 ["<pad>"]
